import Mathlib

/- Verification of the transaction-extraction core of src/amex_parse_pdf.py
   (function extract_transactions_from_pdf).

   Page text and lines are modelled as lists of characters; the regular
   expressions of the script, which are literal-alternation or fixed-shape
   patterns, are transcribed as deterministic character-list scanners. -/

namespace AmexParse

abbrev Chars := List Char

/-- Characters of a string literal. -/
def cs (s : String) : Chars := s.data

/-- Whitespace test backing str.strip and the regex whitespace class
    (ASCII whitespace; the script only handles ASCII statement text). -/
def isWS (c : Char) : Bool := c = ' ' || c = '\t' || c = '\r' || c = '\n'

/-- Python str.strip(): drop whitespace from both ends. -/
def stripChars (s : Chars) : Chars :=
  ((s.dropWhile isWS).reverse.dropWhile isWS).reverse

/-- Python str.splitlines on newline-separated page text. -/
def splitOnNl : Chars → List Chars
  | [] => [[]]
  | '\n' :: t => [] :: splitOnNl t
  | c :: t =>
    match splitOnNl t with
    | [] => [[c]]
    | h :: r => (c :: h) :: r

/-- Python substring test `p in s`. -/
def occursIn (p : Chars) : Chars → Bool
  | [] => p.isEmpty
  | c :: t => p.isPrefixOf (c :: t) || occursIn p t

/-- Python s.split(m)[0]: the text before the first occurrence of m
    (the whole text when m does not occur). -/
def takeBeforeMarker (m : Chars) : Chars → Chars
  | [] => []
  | c :: t => if m.isPrefixOf (c :: t) then [] else c :: takeBeforeMarker m t

/-- Case-insensitive substring search, modelling re.IGNORECASE over the
    script's literal exclusion patterns. -/
def occursInCI (p s : Chars) : Bool :=
  occursIn (p.map Char.toLower) (s.map Char.toLower)

/-- exclude_patterns of the script (all are literal strings). -/
def excludePatterns : List Chars :=
  [cs "Beginning Balance", cs "Ending Balance", cs "Important Notice",
   cs "Member FDIC", cs "Direct inquiries", cs "Accounts offered by"]

/-- exclude_regex.search(s): some exclusion pattern occurs, ignoring case. -/
def exclMatch (s : Chars) : Bool :=
  excludePatterns.any (fun p => occursInCI p s)

/-- The header fragments skipped by the loop. -/
def headerWords : List Chars :=
  [cs "Date", cs "Description", cs "Credits", cs "Debits", cs "Balance"]

/-- Header-line test (case-sensitive substring containment). -/
def isHeaderLine (line : Chars) : Bool :=
  headerWords.any (fun w => occursIn w line)

/-- The legal-notice marker the script truncates pages at. -/
def noticeMarker : Chars := cs "Important Notice"

/-- re.match of "(^\d{2}/\d{2}/\d{4})\s*(.*)" on a line: the matched date
    token and the remainder after the following whitespace run
    (the digit class restricted to ASCII digits). -/
def dateMatch : Chars → Option (Chars × Chars)
  | d1 :: d2 :: s1 :: d3 :: d4 :: s2 :: y1 :: y2 :: y3 :: y4 :: rest =>
    if d1.isDigit && d2.isDigit && s1 = '/' && d3.isDigit && d4.isDigit &&
       s2 = '/' && y1.isDigit && y2.isDigit && y3.isDigit && y4.isDigit then
      some ([d1, d2, s1, d3, d4, s2, y1, y2, y3, y4], rest.dropWhile isWS)
    else none
  | _ => none

def isDigitOrComma (c : Char) : Bool := c.isDigit || c = ','

/-- The tail of an amount match after the "$" sign: the regex piece
    [\d,]+\.\d{2}\)? with its greedy digit/comma run.  Backtracking inside
    the run cannot produce a match the greedy run misses, because every
    shorter run leaves the dot position on a digit or comma. -/
def matchCore (s : Chars) : Option (Chars × Chars) :=
  let run := s.takeWhile isDigitOrComma
  if run.isEmpty then none
  else
    match s.dropWhile isDigitOrComma with
    | '.' :: a :: b :: rest =>
      if a.isDigit && b.isDigit then
        match rest with
        | ')' :: rest2 => some (run ++ ['.', a, b, ')'], rest2)
        | _ => some (run ++ ['.', a, b], rest)
      else none
    | _ => none

/-- One attempted match of the amount regex \(?\$[\d,]+\.\d{2}\)? at the
    head of s: the matched token and the rest of the input.  When the
    optional "(" is taken but the rest fails, the regex alternative without
    "(" requires "$" at the same position and also fails. -/
def tryAmount : Chars → Option (Chars × Chars)
  | '(' :: '$' :: s =>
    match matchCore s with
    | some (core, rest) => some ('(' :: '$' :: core, rest)
    | none => none
  | '$' :: s =>
    match matchCore s with
    | some (core, rest) => some ('$' :: core, rest)
    | none => none
  | _ => none

theorem matchCore_append (s core rest : Chars) (h : matchCore s = some (core, rest)) :
    core ++ rest = s := by
  have hsplit := List.takeWhile_append_dropWhile (p := isDigitOrComma) (l := s)
  unfold matchCore at h
  by_cases he : (s.takeWhile isDigitOrComma).isEmpty
  · simp [he] at h
  · simp only [he, Bool.false_eq_true, if_false] at h
    cases hd : s.dropWhile isDigitOrComma with
    | nil => rw [hd] at h; exact absurd h (by simp)
    | cons c t =>
      rw [hd] at h
      rw [hd] at hsplit
      split at h
      case _ a b rest' heq =>
        split at h
        case _ =>
          split at h
          case _ rest2 =>
            simp only [Option.some.injEq, Prod.mk.injEq] at h
            obtain ⟨h1, h2⟩ := h
            subst h1; subst h2
            rw [heq] at hsplit
            simp only [List.append_assoc, List.cons_append, List.nil_append] at hsplit ⊢
            exact hsplit
          case _ hne =>
            simp only [Option.some.injEq, Prod.mk.injEq] at h
            obtain ⟨h1, h2⟩ := h
            subst h1; subst h2
            rw [heq] at hsplit
            simp only [List.append_assoc, List.cons_append, List.nil_append] at hsplit ⊢
            exact hsplit
        case _ => exact absurd h (by simp)
      case _ => exact absurd h (by simp)

theorem tryAmount_append (s tok rest : Chars) (h : tryAmount s = some (tok, rest)) :
    tok ++ rest = s ∧ tok ≠ [] := by
  unfold tryAmount at h
  split at h
  · rename_i s'
    cases hm : matchCore s' with
    | none => rw [hm] at h; exact absurd h (by simp)
    | some cr =>
      obtain ⟨core, rest'⟩ := cr
      rw [hm] at h
      obtain ⟨h1, h2⟩ := Prod.mk.injEq .. ▸ Option.some.injEq .. ▸ h
      subst h1; subst h2
      have := matchCore_append s' core rest' hm
      refine ⟨?_, by simp⟩
      simpa using this
  · rename_i s'
    cases hm : matchCore s' with
    | none => rw [hm] at h; exact absurd h (by simp)
    | some cr =>
      obtain ⟨core, rest'⟩ := cr
      rw [hm] at h
      obtain ⟨h1, h2⟩ := Prod.mk.injEq .. ▸ Option.some.injEq .. ▸ h
      subst h1; subst h2
      have := matchCore_append s' core rest' hm
      refine ⟨?_, by simp⟩
      simpa using this
  · exact absurd h (by simp)

theorem tryAmount_rest_lt (s tok rest : Chars) (h : tryAmount s = some (tok, rest)) :
    rest.length < s.length := by
  obtain ⟨happ, hne⟩ := tryAmount_append s tok rest h
  have : tok.length + rest.length = s.length := by
    rw [← happ]; simp
  have : 0 < tok.length := List.length_pos.mpr hne
  omega

/-- The findall/sub scan, recursing on a step counter so that the kernel
    can evaluate it; every step consumes at least one character, so a
    counter equal to the input length never runs out. -/
def scanAmountsAux : Nat → Chars → List Chars × Chars
  | _, [] => ([], [])
  | 0, s => ([], s)
  | fuel + 1, c :: t =>
    match tryAmount (c :: t) with
    | some (tok, rest) =>
      let p := scanAmountsAux fuel rest
      (tok :: p.1, p.2)
    | none =>
      let p := scanAmountsAux fuel t
      (p.1, c :: p.2)

/-- The simultaneous re.findall and re.sub(..., '') scan of the amount
    regex over a line: the list of matched tokens in order, and the rest of
    the line with every match removed. -/
def scanAmounts (s : Chars) : List Chars × Chars := scanAmountsAux s.length s

theorem scanAmountsAux_irrel (f1 : Nat) : forall (f2 : Nat) (s : Chars),
    s.length <= f1 -> s.length <= f2 -> scanAmountsAux f1 s = scanAmountsAux f2 s := by
  induction f1 with
  | zero =>
    intro f2 s h1 h2
    have : s = [] := List.length_eq_zero.mp (Nat.le_zero.mp h1)
    subst this
    cases f2 <;> rfl
  | succ f ih =>
    intro f2 s h1 h2
    cases s with
    | nil => cases f2 <;> rfl
    | cons c t =>
      cases f2 with
      | zero => simp at h2
      | succ g =>
        simp only [scanAmountsAux]
        simp only [List.length_cons] at h1 h2
        cases htry : tryAmount (c :: t) with
        | some pr =>
          obtain ⟨tok, rest⟩ := pr
          have hlt := tryAmount_rest_lt _ _ _ htry
          simp only [List.length_cons] at hlt
          dsimp only
          rw [ih g rest (by omega) (by omega)]
        | none =>
          dsimp only
          rw [ih g t (by omega) (by omega)]

/-- The defining recursion of the scan, independent of the counter. -/
theorem scanAmounts_cons (c : Char) (t : Chars) :
    scanAmounts (c :: t) =
      match tryAmount (c :: t) with
      | some (tok, rest) =>
        let p := scanAmounts rest
        (tok :: p.1, p.2)
      | none =>
        let p := scanAmounts t
        (p.1, c :: p.2) := by
  unfold scanAmounts
  simp only [List.length_cons, scanAmountsAux]
  cases htry : tryAmount (c :: t) with
  | some pr =>
    obtain ⟨tok, rest⟩ := pr
    have hlt := tryAmount_rest_lt _ _ _ htry
    simp only [List.length_cons] at hlt
    dsimp only
    rw [scanAmountsAux_irrel t.length rest.length rest (by omega) (by omega)]
  | none => rfl

/-- findall of the amount regex over a line. -/
def findAmounts (s : Chars) : List Chars := (scanAmounts s).1

/-- The current_transaction dict of the script while a transaction is open:
    date, ordered description fragments, and the three amount slots. -/
structure Pending where
  date : Option Chars
  descParts : List Chars
  credits : Option Chars
  debits : Option Chars
  balance : Option Chars
deriving DecidableEq, Repr

/-- The reset value of current_transaction. -/
def emptyPending : Pending :=
  { date := none, descParts := [], credits := none, debits := none, balance := none }

/-- The `'(' in amount` test of the classification loop. -/
def hasParen (amt : Chars) : Bool := amt.contains '('

def noParen (amt : Chars) : Bool := !(amt.contains '(')

/-- One step of the amount-classification loop: the balance slot is claimed
    first; afterwards a parenthesised token goes to debits, any other token
    to credits. -/
def classifyOne (p : Pending) (amt : Chars) : Pending :=
  match p.balance with
  | none => { p with balance := some amt }
  | some _ =>
    if hasParen amt then { p with debits := some amt }
    else { p with credits := some amt }

/-- The classification of one line's amount tokens: the script iterates
    over reversed(amounts), so the rightmost token is processed first. -/
def classifyAmounts (p : Pending) (amts : List Chars) : Pending :=
  amts.reverse.foldl classifyOne p

/-- The split of a description fragment at the notice marker
    (the `if "Important Notice" in desc` handling inside the loop). -/
def cutNotice (s : Chars) : Chars :=
  if occursIn noticeMarker s then stripChars (takeBeforeMarker noticeMarker s) else s

/-- A finalized transaction row as appended to transaction_data:
    joined description, amount slots still optional (pandas NaN for None). -/
structure Txn where
  date : Chars
  description : Chars
  credits : Option Chars
  debits : Option Chars
  balance : Option Chars
deriving DecidableEq, Repr

/-- The assembled description: ' '.join(parts).strip(). -/
def joinSpace : List Chars → Chars
  | [] => []
  | [x] => x
  | x :: xs => x ++ ' ' :: joinSpace xs

def assembleDesc (p : Pending) : Chars := stripChars (joinSpace p.descParts)

/-- The row the script appends for a pending transaction. -/
def mkTxn (p : Pending) : Txn :=
  { date := p.date.getD [], description := assembleDesc p,
    credits := p.credits, debits := p.debits, balance := p.balance }

/-- The emission condition of the mid-page save (a date line was found
    while a transaction was open): date truthy and (description list
    non-empty or credits or debits set).  No exclusion check here. -/
def midCheck (p : Pending) : Bool :=
  p.date.isSome && (!p.descParts.isEmpty || p.credits.isSome || p.debits.isSome)

def emitMid (p : Pending) : List Txn := if midCheck p then [mkTxn p] else []

/-- The end-of-page emission condition: the mid-page condition plus the
    exclusion check on the assembled description. -/
def endCheck (p : Pending) : Bool :=
  midCheck p && !(exclMatch (assembleDesc p))

def emitEnd (p : Pending) : List Txn := if endCheck p then [mkTxn p] else []

/-- Starting a new transaction at a date line: the remainder of the line is
    appended verbatim to the description (after strip and the notice split);
    no amount on the date line is classified. -/
def startPending (d r : Chars) : Pending :=
  let dp := cutNotice (stripChars r)
  { date := some d, descParts := if dp.isEmpty then [] else [dp],
    credits := none, debits := none, balance := none }

/-- The lookahead applied to the line after a date line when it carries
    amount tokens: strip the amounts from the text, append the remainder if
    non-empty, classify the tokens.  (No notice split in this branch.) -/
def lookaheadLine (p : Pending) (nl : Chars) : Pending :=
  let sc := scanAmounts nl
  let dt := stripChars sc.2
  let p1 := if dt.isEmpty then p else { p with descParts := p.descParts ++ [dt] } 
  classifyAmounts p1 sc.1

/-- An ordinary (non-header, non-date) line: if it has amount tokens,
    append the amount-stripped remainder (if non-empty, after the notice
    split) and classify the tokens; otherwise append the whole line. -/
def contLine (p : Pending) (line : Chars) : Pending :=
  let sc := scanAmounts line
  if sc.1.isEmpty then { p with descParts := p.descParts ++ [line] }
  else
    let dt := cutNotice (stripChars sc.2)
    let p1 := if dt.isEmpty then p else { p with descParts := p.descParts ++ [dt] }
    classifyAmounts p1 sc.1

/-- The while-loop of the script, recursing on a step counter: the cursor
    advances by at least one per iteration, so a counter equal to the
    number of remaining lines never runs out. -/
def segLoopAux : Nat → List Chars → Nat → Pending → List Txn → List Txn × Pending
  | 0, _, _, cur, acc => (acc ++ emitEnd cur, cur)
  | fuel + 1, lines, i, cur, acc =>
    if h : i < lines.length then
      if isHeaderLine (stripChars (lines.get ⟨i, h⟩)) then
        segLoopAux fuel lines (i + 1) cur acc
      else
        match dateMatch (stripChars (lines.get ⟨i, h⟩)) with
        | some dr =>
          if h2 : i + 1 < lines.length then
            if (findAmounts (stripChars (lines.get ⟨i + 1, h2⟩))).isEmpty then
              segLoopAux fuel lines (i + 1) (startPending dr.1 dr.2) (acc ++ emitMid cur)
            else
              segLoopAux fuel lines (i + 2)
                (lookaheadLine (startPending dr.1 dr.2) (stripChars (lines.get ⟨i + 1, h2⟩)))
                (acc ++ emitMid cur)
          else
            segLoopAux fuel lines (i + 1) (startPending dr.1 dr.2) (acc ++ emitMid cur)
        | none =>
          segLoopAux fuel lines (i + 1) (contLine cur (stripChars (lines.get ⟨i, h⟩))) acc
    else
      (acc ++ emitEnd cur, cur)

/-- The while-loop of the script over the filtered lines of one page,
    with its cursor i: returns the emitted rows (appended to acc) and the
    final current_transaction.  The date branch saves the open transaction
    (mid-page, without exclusion check), starts a new one and looks ahead
    one line, skipping it when it supplied amounts. -/
def segLoop (lines : List Chars) (i : Nat) (cur : Pending) (acc : List Txn) :
    List Txn × Pending :=
  segLoopAux (lines.length - i) lines i cur acc

theorem segLoopAux_irrel (f1 : Nat) : forall (f2 : Nat) (lines : List Chars) (i : Nat)
    (cur : Pending) (acc : List Txn), lines.length - i <= f1 -> lines.length - i <= f2 ->
    segLoopAux f1 lines i cur acc = segLoopAux f2 lines i cur acc := by
  induction f1 with
  | zero =>
    intro f2 lines i cur acc h1 h2
    cases f2 with
    | zero => rfl
    | succ g =>
      have hi : ¬ i < lines.length := by omega
      rw [segLoopAux.eq_1, segLoopAux.eq_2, dif_neg hi]
  | succ f ih =>
    intro f2 lines i cur acc h1 h2
    cases f2 with
    | zero =>
      have hi : ¬ i < lines.length := by omega
      rw [segLoopAux.eq_1, segLoopAux.eq_2, dif_neg hi]
    | succ g =>
      rw [segLoopAux.eq_2, segLoopAux.eq_2]
      by_cases hi : i < lines.length
      · rw [dif_pos hi, dif_pos hi]
        by_cases hh : isHeaderLine (stripChars (lines.get ⟨i, hi⟩))
        · rw [if_pos hh, if_pos hh]
          exact ih g lines (i + 1) cur acc (by omega) (by omega)
        · rw [if_neg hh, if_neg hh]
          cases hdm : dateMatch (stripChars (lines.get ⟨i, hi⟩)) with
          | some dr =>
            dsimp only
            by_cases h2 : i + 1 < lines.length
            · rw [dif_pos h2, dif_pos h2]
              by_cases ha : (findAmounts (stripChars (lines.get ⟨i + 1, h2⟩))).isEmpty
              · rw [if_pos ha, if_pos ha]
                exact ih g lines (i + 1) _ _ (by omega) (by omega)
              · rw [if_neg ha, if_neg ha]
                exact ih g lines (i + 2) _ _ (by omega) (by omega)
            · rw [dif_neg h2, dif_neg h2]
              exact ih g lines (i + 1) _ _ (by omega) (by omega)
          | none =>
            dsimp only
            exact ih g lines (i + 1) _ _ (by omega) (by omega)
      · rw [dif_neg hi, dif_neg hi]

/-- The defining one-step recursion of the loop, independent of the
    counter. -/
theorem segLoop_eq (lines : List Chars) (i : Nat) (cur : Pending) (acc : List Txn) :
    segLoop lines i cur acc =
      if h : i < lines.length then
        if isHeaderLine (stripChars (lines.get ⟨i, h⟩)) then
          segLoop lines (i + 1) cur acc
        else
          match dateMatch (stripChars (lines.get ⟨i, h⟩)) with
          | some dr =>
            if h2 : i + 1 < lines.length then
              if (findAmounts (stripChars (lines.get ⟨i + 1, h2⟩))).isEmpty then
                segLoop lines (i + 1) (startPending dr.1 dr.2) (acc ++ emitMid cur)
              else
                segLoop lines (i + 2)
                  (lookaheadLine (startPending dr.1 dr.2) (stripChars (lines.get ⟨i + 1, h2⟩)))
                  (acc ++ emitMid cur)
            else
              segLoop lines (i + 1) (startPending dr.1 dr.2) (acc ++ emitMid cur)
          | none =>
            segLoop lines (i + 1) (contLine cur (stripChars (lines.get ⟨i, h⟩))) acc
      else
        (acc ++ emitEnd cur, cur) := by
  by_cases hi : i < lines.length
  · rw [dif_pos hi]
    unfold segLoop
    rw [segLoopAux_irrel (lines.length - i) (lines.length - i - 1 + 1) lines i cur acc
      (by omega) (by omega)]
    rw [segLoopAux.eq_2, dif_pos hi]
    by_cases hh : isHeaderLine (stripChars (lines.get ⟨i, hi⟩))
    · rw [if_pos hh, if_pos hh]
      exact segLoopAux_irrel _ _ lines (i + 1) cur acc (by omega) (by omega)
    · rw [if_neg hh, if_neg hh]
      cases hdm : dateMatch (stripChars (lines.get ⟨i, hi⟩)) with
      | some dr =>
        dsimp only
        by_cases h2 : i + 1 < lines.length
        · rw [dif_pos h2, dif_pos h2]
          by_cases ha : (findAmounts (stripChars (lines.get ⟨i + 1, h2⟩))).isEmpty
          · rw [if_pos ha, if_pos ha]
            exact segLoopAux_irrel _ _ lines (i + 1) _ _ (by omega) (by omega)
          · rw [if_neg ha, if_neg ha]
            exact segLoopAux_irrel _ _ lines (i + 2) _ _ (by omega) (by omega)
        · rw [dif_neg h2, dif_neg h2]
          exact segLoopAux_irrel _ _ lines (i + 1) _ _ (by omega) (by omega)
      | none =>
        dsimp only
        exact segLoopAux_irrel _ _ lines (i + 1) _ _ (by omega) (by omega)
  · rw [dif_neg hi]
    unfold segLoop
    cases hf : lines.length - i with
    | zero => rfl
    | succ g => rw [segLoopAux.eq_2, dif_neg hi]

/-- The page-level preprocessing: truncate at the first legal-notice
    marker, split into lines, strip, drop empties, drop excluded lines. -/
def pageLines (content : Chars) : List Chars :=
  let c1 := if occursIn noticeMarker content
            then takeBeforeMarker noticeMarker content else content
  let ls := (splitOnNl c1).map stripChars
  let ls1 := ls.filter (fun l => !l.isEmpty)
  ls1.filter (fun l => !(exclMatch l))

/-- All rows the segmenter emits for one page of raw text. -/
def processPage (content : Chars) : List Txn :=
  (segLoop (pageLines content) 0 emptyPending []).1

/-- A row of the final DataFrame after cleanup: all five columns strings,
    absent amounts as empty strings. -/
structure Row where
  date : Chars
  description : Chars
  credits : Chars
  debits : Chars
  balance : Chars
deriving DecidableEq, Repr

/-- Python str.split() with no arguments (w collects the current word in
    reverse): maximal non-whitespace runs. -/
def splitWsGo (w : Chars) : Chars → List Chars
  | [] => if w.isEmpty then [] else [w.reverse]
  | c :: t =>
    if isWS c then
      if w.isEmpty then splitWsGo [] t else w.reverse :: splitWsGo [] t
    else splitWsGo (c :: w) t

def splitWs (s : Chars) : List Chars := splitWsGo [] s

/-- ' '.join(x.split()): collapse whitespace runs to single spaces. -/
def collapseWs (s : Chars) : Chars := joinSpace (splitWs s)

/-- The description cleanup of the aggregation step: collapse whitespace,
    then remove every amount-pattern match, then strip. -/
def cleanDesc (s : Chars) : Chars := stripChars (scanAmounts (collapseWs s)).2

/-- One output row: cleaned description, None amounts replaced by "". -/
def finalizeRow (t : Txn) : Row :=
  { date := t.date, description := cleanDesc t.description,
    credits := t.credits.getD [], debits := t.debits.getD [],
    balance := t.balance.getD [] }

/-- Code-point lexicographic string comparison, as Python string <= used by
    the date sort. -/
def lexLe : Chars → Chars → Bool
  | [], _ => true
  | _ :: _, [] => false
  | a :: as, b :: bs =>
    if a.toNat < b.toNat then true
    else if b.toNat < a.toNat then false
    else lexLe as bs

def insertByDate (x : Row) : List Row → List Row
  | [] => [x]
  | y :: ys => if lexLe x.date y.date then x :: y :: ys else y :: insertByDate x ys

/-- df.sort_values("Date"): sort the rows ascending by the raw date
    string. -/
def sortRows : List Row → List Row
  | [] => []
  | x :: xs => insertByDate x (sortRows xs)

/-- The aggregation tail of the script: re-filter rows whose description
    matches an exclusion pattern (case-insensitive), clean descriptions,
    replace missing amounts by empty strings, sort by the date string. -/
def aggregate (ts : List Txn) : List Row :=
  let kept := ts.filter (fun t => !(exclMatch t.description))
  sortRows (kept.map finalizeRow)

def concatAll : List (List Txn) → List Txn
  | [] => []
  | l :: ls => l ++ concatAll ls

/-- The whole run on the ordered sequence of page texts (pages of all input
    files, in file-then-page order): per-page segmentation, concatenation,
    aggregation. -/
def runPages (pages : List Chars) : List Row :=
  aggregate (concatAll (pages.map processPage))

section ClassifierLemmas

/-- Peeling the leftmost token: it is processed last by the reversed
    iteration. -/
theorem classifyAmounts_cons (p : Pending) (a : Chars) (ts : List Chars) :
    classifyAmounts p (a :: ts) = classifyOne (classifyAmounts p ts) a := by
  unfold classifyAmounts
  rw [List.reverse_cons, List.foldl_append]
  rfl

theorem classifyOne_balance_some (p : Pending) (b : Chars) (hb : p.balance = some b)
    (a : Chars) : (classifyOne p a).balance = some b := by
  simp only [classifyOne, hb]
  split <;> simpa using hb

/-- Once assigned, the balance slot survives any further classification. -/
theorem classifyAmounts_balance_some (p : Pending) (b : Chars) (hb : p.balance = some b)
    (ts : List Chars) : (classifyAmounts p ts).balance = some b := by
  induction ts generalizing p with
  | nil => simpa [classifyAmounts] using hb
  | cons a ts ih =>
    rw [classifyAmounts_cons]
    exact classifyOne_balance_some _ _ (ih p hb) a

theorem classifyAmounts_balance_isSome (p : Pending) (hb : p.balance.isSome = true)
    (ts : List Chars) : (classifyAmounts p ts).balance.isSome = true := by
  obtain ⟨b, hb⟩ := Option.isSome_iff_exists.mp hb
  rw [classifyAmounts_balance_some p b hb ts]
  rfl

theorem classifyOne_date (p : Pending) (a : Chars) : (classifyOne p a).date = p.date := by
  unfold classifyOne; split <;> (try split) <;> rfl

theorem classifyOne_descParts (p : Pending) (a : Chars) :
    (classifyOne p a).descParts = p.descParts := by
  unfold classifyOne; split <;> (try split) <;> rfl

theorem classifyAmounts_date (p : Pending) (ts : List Chars) :
    (classifyAmounts p ts).date = p.date := by
  induction ts generalizing p with
  | nil => rfl
  | cons a ts ih => rw [classifyAmounts_cons, classifyOne_date]; exact ih p

theorem classifyAmounts_descParts (p : Pending) (ts : List Chars) :
    (classifyAmounts p ts).descParts = p.descParts := by
  induction ts generalizing p with
  | nil => rfl
  | cons a ts ih => rw [classifyAmounts_cons, classifyOne_descParts]; exact ih p

/-- With the balance slot already set, the credits slot ends at the first
    (leftmost) non-parenthesised token of the line, regardless of its value
    on entry: the reversed iteration writes the leftmost matching token
    last. -/
theorem classifyAmounts_credits_char (p : Pending) (hb : p.balance.isSome = true)
    (ts : List Chars) :
    (classifyAmounts p ts).credits =
      match ts.find? noParen with
      | some t => some t
      | none => p.credits := by
  induction ts generalizing p with
  | nil => rfl
  | cons a ts ih =>
    rw [classifyAmounts_cons]
    have hbs := classifyAmounts_balance_isSome p hb ts
    obtain ⟨b, hb2⟩ := Option.isSome_iff_exists.mp hbs
    by_cases hc : hasParen a
    · have hc2 : ¬ noParen a = true := by simp [noParen, hasParen] at hc ⊢; exact hc
      rw [List.find?_cons_of_neg _ hc2]
      simp only [classifyOne, hb2, hc, if_true, reduceIte]
      exact ih p hb
    · have hc2 : noParen a = true := by simp [noParen, hasParen] at hc ⊢; exact hc
      rw [List.find?_cons_of_pos _ hc2]
      simp only [classifyOne, hb2, hc, Bool.false_eq_true, if_false]

/-- Symmetrically, the debits slot ends at the leftmost parenthesised
    token of the line. -/
theorem classifyAmounts_debits_char (p : Pending) (hb : p.balance.isSome = true)
    (ts : List Chars) :
    (classifyAmounts p ts).debits =
      match ts.find? hasParen with
      | some t => some t
      | none => p.debits := by
  induction ts generalizing p with
  | nil => rfl
  | cons a ts ih =>
    rw [classifyAmounts_cons]
    have hbs := classifyAmounts_balance_isSome p hb ts
    obtain ⟨b, hb2⟩ := Option.isSome_iff_exists.mp hbs
    by_cases hc : hasParen a
    · rw [List.find?_cons_of_pos _ hc]
      simp only [classifyOne, hb2, hc, if_true, reduceIte]
    · rw [List.find?_cons_of_neg _ hc]
      simp only [classifyOne, hb2, hc, Bool.false_eq_true, if_false]
      exact ih p hb

theorem contLine_date (p : Pending) (line : Chars) : (contLine p line).date = p.date := by
  simp only [contLine]
  split
  · rfl
  · rw [classifyAmounts_date]
    split <;> rfl

theorem lookaheadLine_date (p : Pending) (nl : Chars) :
    (lookaheadLine p nl).date = p.date := by
  simp only [lookaheadLine]
  rw [classifyAmounts_date]
  split <;> rfl

end ClassifierLemmas

section SortLemmas

theorem lexLe_total (a b : Chars) : lexLe a b = true ∨ lexLe b a = true := by
  induction a generalizing b with
  | nil => left; rfl
  | cons x xs ih =>
    cases b with
    | nil => right; rfl
    | cons y ys =>
      unfold lexLe
      rcases Nat.lt_trichotomy x.toNat y.toNat with h | h | h
      · left; simp [h]
      · have h2 : ¬ x.toNat < y.toNat := by omega
        have h3 : ¬ y.toNat < x.toNat := by omega
        rcases ih ys with hy | hy
        · left; simp [h2, h3, hy]
        · right; simp [h2, h3, hy]
      · right; simp [h, Nat.lt_asymm h]

theorem lexLe_trans (a b c : Chars) (hab : lexLe a b = true) (hbc : lexLe b c = true) :
    lexLe a c = true := by
  induction a generalizing b c with
  | nil => rfl
  | cons x xs ih =>
    cases b with
    | nil => simp [lexLe] at hab
    | cons y ys =>
      cases c with
      | nil => simp [lexLe] at hbc
      | cons z zs =>
        unfold lexLe at hab hbc ⊢
        by_cases h1 : x.toNat < y.toNat
        · by_cases h2 : y.toNat < z.toNat
          · simp [show x.toNat < z.toNat by omega]
          · by_cases h3 : z.toNat < y.toNat
            · simp [h2, h3] at hbc
            · simp [show x.toNat < z.toNat by omega]
        · by_cases h4 : y.toNat < x.toNat
          · simp [h1, h4] at hab
          · simp only [h1, h4, if_false] at hab
            by_cases h2 : y.toNat < z.toNat
            · simp [show x.toNat < z.toNat by omega]
            · by_cases h3 : z.toNat < y.toNat
              · simp [h2, h3] at hbc
              · simp only [h2, h3, if_false] at hbc
                have hxz1 : ¬ x.toNat < z.toNat := by omega
                have hxz2 : ¬ z.toNat < x.toNat := by omega
                simp only [hxz1, hxz2, if_false]
                exact ih ys zs hab hbc

theorem mem_insertByDate (x z : Row) (l : List Row) (hz : z ∈ insertByDate x l) :
    z = x ∨ z ∈ l := by
  induction l with
  | nil => simpa [insertByDate] using hz
  | cons y ys ih =>
    unfold insertByDate at hz
    by_cases hc : lexLe x.date y.date
    · rw [if_pos hc] at hz
      rcases List.mem_cons.mp hz with h | h
      · left; exact h
      · right; exact h
    · rw [if_neg hc] at hz
      rcases List.mem_cons.mp hz with h | h
      · right; simp [h]
      · rcases ih h with h2 | h2
        · left; exact h2
        · right; simp [h2]

theorem pairwise_insertByDate (x : Row) (l : List Row)
    (hl : l.Pairwise (fun a b => lexLe a.date b.date = true)) :
    (insertByDate x l).Pairwise (fun a b => lexLe a.date b.date = true) := by
  induction l with
  | nil => simp [insertByDate]
  | cons y ys ih =>
    rcases List.pairwise_cons.mp hl with ⟨hy, hys⟩
    unfold insertByDate
    by_cases hc : lexLe x.date y.date
    · rw [if_pos hc]
      refine List.pairwise_cons.mpr ⟨?_, hl⟩
      intro z hz
      rcases List.mem_cons.mp hz with h | h
      · rw [h]; exact hc
      · exact lexLe_trans _ _ _ hc (hy z h)
    · rw [if_neg hc]
      refine List.pairwise_cons.mpr ⟨?_, ih hys⟩
      intro z hz
      rcases mem_insertByDate x z ys hz with h | h
      · rw [h]
        rcases lexLe_total x.date y.date with h2 | h2
        · exact absurd h2 hc
        · exact h2
      · exact hy z h

/-- The insertion sort over the date strings produces a list that is
    pairwise ordered by code-point-lexicographic comparison. -/
theorem sorted_sortRows (l : List Row) :
    (sortRows l).Pairwise (fun a b => lexLe a.date b.date = true) := by
  induction l with
  | nil => simp [sortRows]
  | cons x xs ih => exact pairwise_insertByDate x (sortRows xs) ih

end SortLemmas

section MarkerLemmas

theorem isPrefixOf_iff_append (p s : Chars) : p.isPrefixOf s = true ↔ ∃ u, s = p ++ u := by
  induction p generalizing s with
  | nil => simp [List.isPrefixOf]
  | cons a as ih =>
    cases s with
    | nil => simp [List.isPrefixOf]
    | cons b bs =>
      simp only [List.isPrefixOf, Bool.and_eq_true, beq_iff_eq, ih bs, List.cons_append,
        List.cons.injEq]
      constructor
      · rintro ⟨rfl, u, rfl⟩; exact ⟨u, rfl, rfl⟩
      · rintro ⟨u, rfl, rfl⟩; exact ⟨rfl, u, rfl⟩

theorem isPrefixOf_append_left (m b : Chars) : m.isPrefixOf (m ++ b) = true :=
  (isPrefixOf_iff_append m (m ++ b)).mpr ⟨b, rfl⟩

theorem isPrefixOf_congr (m : Chars) : ∀ (l b c : Chars), m.length ≤ l.length →
    m.isPrefixOf (l ++ b) = m.isPrefixOf (l ++ c) := by
  induction m with
  | nil =>
    intro l b c h
    rw [(isPrefixOf_iff_append [] (l ++ b)).mpr ⟨l ++ b, rfl⟩,
        (isPrefixOf_iff_append [] (l ++ c)).mpr ⟨l ++ c, rfl⟩]
  | cons p ps ih =>
    intro l b c h
    cases l with
    | nil => simp at h
    | cons q ls =>
      simp only [List.cons_append, List.isPrefixOf, List.append_eq]
      rw [ih ls b c (by simpa using h)]

theorem takeBeforeMarker_sandwich (m : Chars) (hm : m ≠ []) :
    ∀ (a b c : Chars),
    takeBeforeMarker m (a ++ (m ++ b)) = takeBeforeMarker m (a ++ (m ++ c)) := by
  intro a
  induction a with
  | nil =>
    intro b c
    cases m with
    | nil => exact absurd rfl hm
    | cons m0 ms =>
      have h1 := isPrefixOf_append_left (m0 :: ms) b
      have h2 := isPrefixOf_append_left (m0 :: ms) c
      simp only [List.nil_append, List.cons_append] at h1 h2 ⊢
      rw [takeBeforeMarker, takeBeforeMarker, if_pos h1, if_pos h2]
  | cons x a2 ih =>
    intro b c
    have hkey : (m.isPrefixOf ((x :: a2) ++ (m ++ b))) =
        (m.isPrefixOf ((x :: a2) ++ (m ++ c))) := by
      have e1 : (x :: a2) ++ (m ++ b) = ((x :: a2) ++ m) ++ b := by
        simp [List.append_assoc]
      have e2 : (x :: a2) ++ (m ++ c) = ((x :: a2) ++ m) ++ c := by
        simp [List.append_assoc]
      rw [e1, e2]
      exact isPrefixOf_congr m ((x :: a2) ++ m) b c (by simp; omega)
    simp only [List.cons_append] at hkey ⊢
    rw [takeBeforeMarker, takeBeforeMarker]
    by_cases hp : m.isPrefixOf (x :: (a2 ++ (m ++ b)))
    · rw [if_pos hp, if_pos (by rw [← hkey]; exact hp)]
    · rw [if_neg hp, if_neg (by rw [← hkey]; exact hp)]
      rw [ih b c]

theorem occursIn_sandwich (m : Chars) (hm : m ≠ []) (a b : Chars) :
    occursIn m (a ++ (m ++ b)) = true := by
  induction a with
  | nil =>
    cases m with
    | nil => exact absurd rfl hm
    | cons m0 ms =>
      have h1 := isPrefixOf_append_left (m0 :: ms) b
      simp only [List.nil_append, List.cons_append] at h1 ⊢
      rw [occursIn, h1]
      rfl
  | cons x a2 ih =>
    simp only [List.cons_append]
    rw [occursIn, ih]
    simp

theorem occursIn_false_takeBefore (m : Chars) : ∀ (s : Chars), occursIn m s = false →
    takeBeforeMarker m s = s := by
  intro s
  induction s with
  | nil => intro _; rfl
  | cons c t ih =>
    intro h
    rw [occursIn] at h
    rcases Bool.or_eq_false_iff.mp h with ⟨h1, h2⟩
    rw [takeBeforeMarker, if_neg (by simp [h1]), ih h2]

theorem takeBefore_isPrefix (m : Chars) : ∀ (s : Chars),
    ∃ u, s = takeBeforeMarker m s ++ u := by
  intro s
  induction s with
  | nil => exact ⟨[], rfl⟩
  | cons c t ih =>
    by_cases hp : m.isPrefixOf (c :: t)
    · exact ⟨c :: t, by rw [takeBeforeMarker, if_pos hp]; rfl⟩
    · obtain ⟨u, hu⟩ := ih
      refine ⟨u, ?_⟩
      rw [takeBeforeMarker, if_neg hp, List.cons_append, ← hu]

theorem occursIn_takeBefore_false (m : Chars) (hm : m ≠ []) : ∀ (s : Chars),
    occursIn m (takeBeforeMarker m s) = false := by
  intro s
  induction s with
  | nil =>
    show occursIn m [] = false
    rw [occursIn]
    simpa using hm
  | cons c t ih =>
    by_cases hp : m.isPrefixOf (c :: t)
    · rw [takeBeforeMarker, if_pos hp, occursIn]
      simpa using hm
    · rw [takeBeforeMarker, if_neg hp, occursIn]
      refine Bool.or_eq_false_iff.mpr ⟨?_, ih⟩
      by_contra hcon
      have hpre : m.isPrefixOf (c :: takeBeforeMarker m t) = true := by
        revert hcon
        cases m.isPrefixOf (c :: takeBeforeMarker m t) <;> simp
      obtain ⟨u, hu⟩ := (isPrefixOf_iff_append _ _).mp hpre
      obtain ⟨v, hv⟩ := takeBefore_isPrefix m t
      have : c :: t = m ++ (u ++ v) := by
        rw [hv, ← List.append_assoc, ← hu]
        rfl
      exact hp ((isPrefixOf_iff_append _ _).mpr ⟨u ++ v, this⟩)

end MarkerLemmas

section WhitespaceLemmas

theorem dropWhile_head_not (p : Char → Bool) : ∀ (l : Chars), l.dropWhile p ≠ [] →
    ∃ y ys, l.dropWhile p = y :: ys ∧ p y = false := by
  intro l
  induction l with
  | nil => intro h; exact absurd rfl h
  | cons c t ih =>
    intro h
    by_cases hc : p c
    · rw [List.dropWhile_cons_of_pos hc] at h ⊢
      exact ih h
    · rw [List.dropWhile_cons_of_neg hc] at h ⊢
      exact ⟨c, t, rfl, by simpa using hc⟩

theorem stripChars_ne_nil_nonws (s : Chars) (h : stripChars s ≠ []) :
    ∃ c ∈ stripChars s, isWS c = false := by
  unfold stripChars at h ⊢
  have h2 : ((s.dropWhile isWS).reverse.dropWhile isWS) ≠ [] := by
    intro he; rw [he] at h; exact h rfl
  obtain ⟨y, ys, hys, hy⟩ := dropWhile_head_not isWS _ h2
  refine ⟨y, ?_, hy⟩
  rw [hys]
  simp

theorem stripChars_eq_nil_all_ws (s : Chars) (h : stripChars s = []) :
    ∀ c ∈ s, isWS c = true := by
  unfold stripChars at h
  have h2 : ((s.dropWhile isWS).reverse.dropWhile isWS) = [] := by
    simpa using congrArg List.reverse h
  have h3 : ∀ c ∈ (s.dropWhile isWS).reverse, isWS c = true :=
    List.dropWhile_eq_nil_iff.mp h2
  intro c hc
  rcases List.mem_append.mp ((List.takeWhile_append_dropWhile (p := isWS) (l := s)) ▸ hc)
    with hmem | hmem
  · exact List.mem_takeWhile_imp hmem
  · exact h3 c (List.mem_reverse.mpr hmem)

theorem nonws_stripChars_ne_nil (s : Chars) (c : Char) (hc : c ∈ s)
    (hw : isWS c = false) : stripChars s ≠ [] := by
  intro h
  have := stripChars_eq_nil_all_ws s h c hc
  rw [hw] at this
  cases this

theorem mem_joinSpace (f : Chars) : ∀ (parts : List Chars), f ∈ parts →
    ∀ c ∈ f, c ∈ joinSpace parts := by
  intro parts
  induction parts with
  | nil => intro hf; cases hf
  | cons x xs ih =>
    intro hf c hc
    cases xs with
    | nil =>
      have : f = x := by simpa using hf
      subst this
      simpa [joinSpace] using hc
    | cons y ys =>
      show c ∈ x ++ ' ' :: joinSpace (y :: ys)
      rcases List.mem_cons.mp hf with h | h
      · subst h
        exact List.mem_append.mpr (Or.inl hc)
      · exact List.mem_append.mpr (Or.inr (List.mem_cons.mpr (Or.inr (ih h c hc))))

end WhitespaceLemmas

section EmissionLemmas

/-- The property every emitted transaction actually satisfies: non-empty
    date and (non-empty description or credits or debits present). -/
def goodTxn (t : Txn) : Prop :=
  t.date ≠ [] ∧ (t.description ≠ [] ∨ t.credits.isSome = true ∨ t.debits.isSome = true)

/-- Invariant of the open transaction: the date token, when present, is
    non-empty, and every description fragment holds a non-whitespace
    character. -/
def goodPending (p : Pending) : Prop :=
  (∀ d, p.date = some d → d ≠ []) ∧ ∀ f ∈ p.descParts, ∃ c ∈ f, isWS c = false

theorem goodPending_mkTxn (p : Pending) (hp : goodPending p) (hm : midCheck p = true) :
    goodTxn (mkTxn p) := by
  obtain ⟨hdate, hfrag⟩ := hp
  unfold midCheck at hm
  simp only [Bool.and_eq_true, Bool.or_eq_true] at hm
  obtain ⟨hd, hrest⟩ := hm
  obtain ⟨d, hd2⟩ := Option.isSome_iff_exists.mp hd
  constructor
  · show (mkTxn p).date ≠ []
    unfold mkTxn
    rw [hd2]
    exact hdate d hd2
  · rcases hrest with h | h
    · rcases h with h2 | h2
      · left
        show assembleDesc p ≠ []
        have hne : p.descParts ≠ [] := by
          intro he
          rw [he] at h2
          simp at h2
        obtain ⟨f, hf⟩ := List.exists_mem_of_ne_nil _ hne
        obtain ⟨c, hc, hw⟩ := hfrag f hf
        exact nonws_stripChars_ne_nil _ c (mem_joinSpace f p.descParts hf c hc) hw
      · right; left; exact h2
    · right; right; exact h

theorem dateMatch_date_ne_nil (l d r : Chars) (h : dateMatch l = some (d, r)) :
    d ≠ [] := by
  unfold dateMatch at h
  split at h
  · split at h
    · simp only [Option.some.injEq, Prod.mk.injEq] at h
      obtain ⟨h1, h2⟩ := h
      subst h1
      simp
    · exact absurd h (by simp)
  · exact absurd h (by simp)

theorem cutNotice_strip_nonws (r : Chars) (h : cutNotice (stripChars r) ≠ []) :
    ∃ c ∈ cutNotice (stripChars r), isWS c = false := by
  unfold cutNotice at h ⊢
  by_cases ho : occursIn noticeMarker (stripChars r)
  · rw [if_pos ho] at h ⊢
    exact stripChars_ne_nil_nonws _ h
  · rw [if_neg ho] at h ⊢
    exact stripChars_ne_nil_nonws _ h

theorem goodPending_start (d r : Chars) (hd : d ≠ []) :
    goodPending (startPending d r) := by
  constructor
  · intro d2 hd2
    unfold startPending at hd2
    simp only [Option.some.injEq] at hd2
    rw [← hd2]
    exact hd
  · intro f hf
    unfold startPending at hf
    simp only at hf
    by_cases he : (cutNotice (stripChars r)).isEmpty
    · rw [if_pos he] at hf
      cases hf
    · rw [if_neg he] at hf
      have : f = cutNotice (stripChars r) := by simpa using hf
      subst this
      exact cutNotice_strip_nonws r (by simpa using he)

theorem goodPending_lookahead (p : Pending) (nl : Chars) (hp : goodPending p) :
    goodPending (lookaheadLine p nl) := by
  obtain ⟨hd, hf⟩ := hp
  unfold lookaheadLine
  constructor
  · intro d2 hd2
    rw [classifyAmounts_date] at hd2
    split at hd2
    · exact hd d2 hd2
    · exact hd d2 (by simpa using hd2)
  · intro f hfm
    rw [classifyAmounts_descParts] at hfm
    split at hfm
    · exact hf f hfm
    · rename_i hne
      simp only at hfm
      rcases List.mem_append.mp hfm with h | h
      · exact hf f h
      · have : f = stripChars (scanAmounts nl).2 := by simpa using h
        subst this
        exact stripChars_ne_nil_nonws _ (by simpa using hne)

theorem goodPending_cont (p : Pending) (line : Chars) (hp : goodPending p)
    (hline : ∃ c ∈ line, isWS c = false) :
    goodPending (contLine p line) := by
  obtain ⟨hd, hf⟩ := hp
  unfold contLine
  by_cases ha : (scanAmounts line).1.isEmpty
  · rw [if_pos ha]
    refine ⟨fun d2 hd2 => hd d2 hd2, ?_⟩
    intro f hfm
    simp only at hfm
    rcases List.mem_append.mp hfm with h | h
    · exact hf f h
    · have : f = line := by simpa using h
      subst this
      exact hline
  · rw [if_neg ha]
    constructor
    · intro d2 hd2
      rw [classifyAmounts_date] at hd2
      split at hd2
      · exact hd d2 hd2
      · exact hd d2 (by simpa using hd2)
    · intro f hfm
      rw [classifyAmounts_descParts] at hfm
      split at hfm
      · exact hf f hfm
      · rename_i hne
        simp only at hfm
        rcases List.mem_append.mp hfm with h | h
        · exact hf f h
        · have : f = cutNotice (stripChars (scanAmounts line).2) := by simpa using h
          subst this
          exact cutNotice_strip_nonws _ (by simpa using hne)

end EmissionLemmas

section LoopLemmas

/-- A raw line that the loop will recognise as a date line. -/
def isDateL (l : Chars) : Bool := (dateMatch (stripChars l)).isSome

theorem goodTxn_emitMid (p : Pending) (hp : goodPending p) :
    ∀ t ∈ emitMid p, goodTxn t := by
  intro t ht
  unfold emitMid at ht
  split at ht
  · rename_i hm
    have : t = mkTxn p := by simpa using ht
    subst this
    exact goodPending_mkTxn p hp hm
  · simp at ht

theorem goodTxn_emitEnd (p : Pending) (hp : goodPending p) :
    ∀ t ∈ emitEnd p, goodTxn t := by
  intro t ht
  unfold emitEnd at ht
  split at ht
  · rename_i hm
    unfold endCheck at hm
    simp only [Bool.and_eq_true] at hm
    have : t = mkTxn p := by simpa using ht
    subst this
    exact goodPending_mkTxn p hp hm.1
  · simp at ht

theorem midCheck_date_none (p : Pending) (h : p.date = none) : midCheck p = false := by
  unfold midCheck
  rw [h]
  rfl

theorem emitMid_date_none (p : Pending) (h : p.date = none) : emitMid p = [] := by
  unfold emitMid
  rw [midCheck_date_none p h]
  rfl

theorem countP_tail_zero (s : List Chars) (h : s.countP isDateL = 0) :
    (s.drop 1).countP isDateL = 0 := by
  cases s with
  | nil => rfl
  | cons c t =>
    simp only [List.countP_cons] at h
    simpa using (by omega : t.countP isDateL = 0)

/-- When no remaining line is a date line, the loop emits nothing except
    the end-of-page finalization of the pending transaction. -/
theorem segLoop_noDates (lines : List Chars) (i : Nat) (cur : Pending) (acc : List Txn)
    (h : (lines.drop i).countP isDateL = 0) :
    (segLoop lines i cur acc).1 = acc ++ emitEnd (segLoop lines i cur acc).2 := by
  rw [segLoop_eq]
  by_cases hi : i < lines.length
  · rw [dif_pos hi]
    have hdrop : lines.drop i = lines.get ⟨i, hi⟩ :: lines.drop (i + 1) := by
      rw [List.drop_eq_getElem_cons hi]
      rfl
    rw [hdrop, List.countP_cons] at h
    have h1 : (lines.drop (i + 1)).countP isDateL = 0 := by omega
    have h0 : isDateL (lines.get ⟨i, hi⟩) = false := by
      cases hb : isDateL (lines.get ⟨i, hi⟩) with
      | false => rfl
      | true => rw [hb] at h; simp at h
    by_cases hh : isHeaderLine (stripChars (lines.get ⟨i, hi⟩))
    · rw [if_pos hh]
      exact segLoop_noDates lines (i + 1) cur acc h1
    · rw [if_neg hh]
      cases hdm : dateMatch (stripChars (lines.get ⟨i, hi⟩)) with
      | some dr =>
        unfold isDateL at h0
        rw [hdm] at h0
        simp at h0
      | none =>
        dsimp only
        exact segLoop_noDates lines (i + 1) (contLine cur (stripChars (lines.get ⟨i, hi⟩))) acc h1
  · rw [dif_neg hi]
termination_by lines.length - i
decreasing_by all_goals omega

/-- With the pending transaction still dateless and at most one date line
    remaining, the loop emits nothing except the end-of-page finalization:
    the mid-page save can never fire. -/
theorem segLoop_oneDate (lines : List Chars) (i : Nat) (cur : Pending) (acc : List Txn)
    (hd : cur.date = none) (h : (lines.drop i).countP isDateL <= 1) :
    (segLoop lines i cur acc).1 = acc ++ emitEnd (segLoop lines i cur acc).2 := by
  rw [segLoop_eq]
  by_cases hi : i < lines.length
  · rw [dif_pos hi]
    have hdrop : lines.drop i = lines.get ⟨i, hi⟩ :: lines.drop (i + 1) := by
      rw [List.drop_eq_getElem_cons hi]
      rfl
    rw [hdrop, List.countP_cons] at h
    by_cases hh : isHeaderLine (stripChars (lines.get ⟨i, hi⟩))
    · rw [if_pos hh]
      exact segLoop_oneDate lines (i + 1) cur acc hd (by omega)
    · rw [if_neg hh]
      cases hdm : dateMatch (stripChars (lines.get ⟨i, hi⟩)) with
      | some dr =>
        dsimp only
        rw [emitMid_date_none cur hd, List.append_nil]
        have hDL : isDateL (lines.get ⟨i, hi⟩) = true := by
          unfold isDateL
          rw [hdm]
          rfl
        have hcount : (if isDateL (lines.get ⟨i, hi⟩) = true then 1 else 0) = 1 := by
          rw [hDL]
          rfl
        rw [hcount] at h
        have h1 : (lines.drop (i + 1)).countP isDateL = 0 := by omega
        have h2 : (lines.drop (i + 2)).countP isDateL = 0 := by
          have he : lines.drop (i + 2) = (lines.drop (i + 1)).drop 1 := by
            rw [List.drop_drop]
          rw [he]
          exact countP_tail_zero _ h1
        by_cases hl2 : i + 1 < lines.length
        · rw [dif_pos hl2]
          by_cases ha : (findAmounts (stripChars (lines.get ⟨i + 1, hl2⟩))).isEmpty
          · rw [if_pos ha]
            exact segLoop_noDates lines (i + 1) _ acc h1
          · rw [if_neg ha]
            exact segLoop_noDates lines (i + 2) _ acc h2
        · rw [dif_neg hl2]
          exact segLoop_noDates lines (i + 1) _ acc h1
      | none =>
        dsimp only
        have hd2 : (contLine cur (stripChars (lines.get ⟨i, hi⟩))).date = none := by
          rw [contLine_date]
          exact hd
        exact segLoop_oneDate lines (i + 1) _ acc hd2 (by omega)
  · rw [dif_neg hi]
termination_by lines.length - i
decreasing_by all_goals omega

end LoopLemmas

/-- Every row the loop ever emits satisfies goodTxn, provided every line
    still holds a non-whitespace character after stripping. -/
theorem segLoop_good (lines : List Chars) (i : Nat) (cur : Pending) (acc : List Txn)
    (hl : ∀ l ∈ lines, ∃ c ∈ stripChars l, isWS c = false)
    (hcur : goodPending cur) (hacc : ∀ t ∈ acc, goodTxn t) :
    ∀ t ∈ (segLoop lines i cur acc).1, goodTxn t := by
  rw [segLoop_eq]
  by_cases hi : i < lines.length
  · rw [dif_pos hi]
    by_cases hh : isHeaderLine (stripChars (lines.get ⟨i, hi⟩))
    · rw [if_pos hh]
      exact segLoop_good lines (i + 1) cur acc hl hcur hacc
    · rw [if_neg hh]
      cases hdm : dateMatch (stripChars (lines.get ⟨i, hi⟩)) with
      | some dr =>
        dsimp only
        have hdne : dr.1 ≠ [] := dateMatch_date_ne_nil _ dr.1 dr.2 (by rw [hdm])
        have hacc2 : ∀ t ∈ acc ++ emitMid cur, goodTxn t := by
          intro t ht
          rcases List.mem_append.mp ht with h2 | h2
          · exact hacc t h2
          · exact goodTxn_emitMid cur hcur t h2
        by_cases h2 : i + 1 < lines.length
        · rw [dif_pos h2]
          by_cases ha : (findAmounts (stripChars (lines.get ⟨i + 1, h2⟩))).isEmpty
          · rw [if_pos ha]
            exact segLoop_good lines (i + 1) _ _ hl (goodPending_start dr.1 dr.2 hdne) hacc2
          · rw [if_neg ha]
            exact segLoop_good lines (i + 2) _ _ hl
              (goodPending_lookahead _ _ (goodPending_start dr.1 dr.2 hdne)) hacc2
        · rw [dif_neg h2]
          exact segLoop_good lines (i + 1) _ _ hl (goodPending_start dr.1 dr.2 hdne) hacc2
      | none =>
        dsimp only
        exact segLoop_good lines (i + 1) _ _ hl
          (goodPending_cont cur _ hcur (hl _ (lines.get_mem i hi))) hacc
  · rw [dif_neg hi]
    intro t ht
    rcases List.mem_append.mp ht with h2 | h2
    · exact hacc t h2
    · exact goodTxn_emitEnd cur hcur t h2
termination_by lines.length - i
decreasing_by all_goals omega

/-- The filtered lines of a page all hold a non-whitespace character. -/
theorem pageLines_nonws (content : Chars) :
    ∀ l ∈ pageLines content, ∃ c ∈ stripChars l, isWS c = false := by
  intro l hl
  unfold pageLines at hl
  have hl2 := List.mem_filter.mp hl
  have hl3 := List.mem_filter.mp hl2.1
  obtain ⟨raw, _, hraw⟩ := List.mem_map.mp hl3.1
  have hne : l ≠ [] := by simpa using hl3.2
  obtain ⟨c, hc, hw⟩ := stripChars_ne_nil_nonws raw (by rw [hraw]; exact hne)
  rw [hraw] at hc
  exact stripChars_ne_nil_nonws l (nonws_stripChars_ne_nil l c hc hw)

section Claims

/-- C1, counterexample: the claim asserts every emitted Transaction's
    assembled description avoids the exclusion patterns, but the mid-page
    save path performs no exclusion check: on this page the Segmenter emits
    a transaction whose description "beginning balance x" (assembled from
    fragments that individually pass the line filter) matches the
    case-insensitive "Beginning Balance" exclusion pattern. -/
theorem C1_counterexample :
    processPage (cs "01/02/2023 beginning\nbalance x\n01/05/2023 Z") =
      [{ date := cs "01/02/2023", description := cs "beginning balance x",
         credits := none, debits := none, balance := none },
       { date := cs "01/05/2023", description := cs "Z",
         credits := none, debits := none, balance := none }] ∧
    exclMatch (cs "beginning balance x") = true := by
  exact ⟨by decide, by decide⟩

/-- C1, amended: every Transaction emitted by the Line Segmenter (mid-page
    or at end of page) has a non-empty date and a non-empty description or
    a credits or debits value; the exclusion check on the assembled
    description is applied only at end-of-page finalization, so a mid-page
    save may carry an excluded description (later removed by the
    Aggregator's row-level re-check). -/
theorem C1_emitted_invariant (content : Chars) (t : Txn) (ht : t ∈ processPage content) :
    t.date ≠ [] ∧
      (t.description ≠ [] ∨ t.credits.isSome = true ∨ t.debits.isSome = true) := by
  have hEmpty : goodPending emptyPending := by
    constructor
    · intro d hd
      simp [emptyPending] at hd
    · intro f hf
      simp [emptyPending] at hf
  exact segLoop_good (pageLines content) 0 emptyPending [] (pageLines_nonws content)
    hEmpty (by intro t2 ht2; cases ht2) t ht

/-- Witness for C1: a one-line page emits one transaction satisfying the
    invariant. -/
theorem C1_emitted_invariant_witness :
    ({ date := cs "01/02/2023", description := cs "COFFEE", credits := none,
       debits := none, balance := none } : Txn) ∈ processPage (cs "01/02/2023 COFFEE") ∧
    (({ date := cs "01/02/2023", description := cs "COFFEE", credits := none,
        debits := none, balance := none } : Txn).date ≠ [] ∧
      (({ date := cs "01/02/2023", description := cs "COFFEE", credits := none,
          debits := none, balance := none } : Txn).description ≠ [] ∨
        ({ date := cs "01/02/2023", description := cs "COFFEE", credits := none,
           debits := none, balance := none } : Txn).credits.isSome = true ∨
        ({ date := cs "01/02/2023", description := cs "COFFEE", credits := none,
           debits := none, balance := none } : Txn).debits.isSome = true)) :=
  ⟨by decide, C1_emitted_invariant (cs "01/02/2023 COFFEE") _ (by decide)⟩

/-- C2: on the line carrying "$10.00", "($5.00)", "$100.00" the scanner
    finds the three tokens in order, and classifying them against a
    pending transaction with no slots assigned processes them in reverse,
    yielding balance "$100.00", debits "($5.00)", credits "$10.00". -/
theorem C2_reverse_classification :
    findAmounts (cs "$10.00 ($5.00) $100.00") =
      [cs "$10.00", cs "($5.00)", cs "$100.00"] ∧
    ∀ (d : Option Chars) (parts : List Chars),
      classifyAmounts
          { date := d, descParts := parts, credits := none, debits := none, balance := none }
          [cs "$10.00", cs "($5.00)", cs "$100.00"] =
        { date := d, descParts := parts, credits := some (cs "$10.00"),
          debits := some (cs "($5.00)"), balance := some (cs "$100.00") } := by
  refine ⟨by decide, fun d parts => ?_⟩
  rfl

/-- C3: the three-line page yields exactly two transactions; the second,
    with a date and description but no amount tokens, is emitted with all
    three amount fields empty in the final table. -/
theorem C3_two_line_scenario :
    processPage (cs "01/02/2023 COFFEE SHOP\n$4.50 $1,200.00\n01/05/2023 PAYROLL DEPOSIT") =
      [{ date := cs "01/02/2023", description := cs "COFFEE SHOP",
         credits := some (cs "$4.50"), debits := none, balance := some (cs "$1,200.00") },
       { date := cs "01/05/2023", description := cs "PAYROLL DEPOSIT",
         credits := none, debits := none, balance := none }] ∧
    runPages [cs "01/02/2023 COFFEE SHOP\n$4.50 $1,200.00\n01/05/2023 PAYROLL DEPOSIT"] =
      [{ date := cs "01/02/2023", description := cs "COFFEE SHOP", credits := cs "$4.50",
         debits := cs "", balance := cs "$1,200.00" },
       { date := cs "01/05/2023", description := cs "PAYROLL DEPOSIT", credits := cs "",
         debits := cs "", balance := cs "" }] := by
  exact ⟨by decide, by decide⟩

/-- C4: with the balance slot already set, a second line's classification
    overwrites the credits and debits slots written by a first line:
    whatever ts1 wrote, after ts2 the credits slot holds ts2's first
    non-parenthesised token and the debits slot ts2's first parenthesised
    token (last write wins). -/
theorem C4_last_write_wins (p : Pending) (hb : p.balance.isSome = true)
    (ts1 ts2 : List Chars) (t d : Chars)
    (ht : ts2.find? noParen = some t) (hd : ts2.find? hasParen = some d) :
    (classifyAmounts (classifyAmounts p ts1) ts2).credits = some t ∧
    (classifyAmounts (classifyAmounts p ts1) ts2).debits = some d := by
  have hb2 : (classifyAmounts p ts1).balance.isSome = true :=
    classifyAmounts_balance_isSome p hb ts1
  constructor
  · rw [classifyAmounts_credits_char _ hb2 ts2, ht]
  · rw [classifyAmounts_debits_char _ hb2 ts2, hd]

/-- Witness for C4 at concrete slot values and token lists. -/
theorem C4_last_write_wins_witness :
    ({ date := none, descParts := [], credits := none, debits := none,
       balance := some (cs "$9.00") } : Pending).balance.isSome = true ∧
    ([cs "$3.00", cs "($4.00)"].find? noParen = some (cs "$3.00")) ∧
    ([cs "$3.00", cs "($4.00)"].find? hasParen = some (cs "($4.00)")) ∧
    ((classifyAmounts (classifyAmounts
        { date := none, descParts := [], credits := none, debits := none,
          balance := some (cs "$9.00") } [cs "$1.00", cs "($2.00)"])
        [cs "$3.00", cs "($4.00)"]).credits = some (cs "$3.00") ∧
      (classifyAmounts (classifyAmounts
        { date := none, descParts := [], credits := none, debits := none,
          balance := some (cs "$9.00") } [cs "$1.00", cs "($2.00)"])
        [cs "$3.00", cs "($4.00)"]).debits = some (cs "($4.00)")) :=
  ⟨by decide, by decide, by decide,
    C4_last_write_wins _ (by decide) _ _ _ _ (by decide) (by decide)⟩

/-- C5: the final output is sorted ascending by the raw date string under
    code-point-lexicographic comparison; in particular "01/05/2024" is
    placed before "12/31/2023". -/
theorem C5_date_sorted :
    (∀ ts : List Txn, (aggregate ts).Pairwise (fun a b => lexLe a.date b.date = true)) ∧
    runPages [cs "12/31/2023 OLD THING", cs "01/05/2024 NEW THING"] =
      [{ date := cs "01/05/2024", description := cs "NEW THING", credits := cs "",
         debits := cs "", balance := cs "" },
       { date := cs "12/31/2023", description := cs "OLD THING", credits := cs "",
         debits := cs "", balance := cs "" }] := by
  refine ⟨fun ts => ?_, by decide⟩
  unfold aggregate
  exact sorted_sortRows _

/-- C6: the transactions of a page are unaffected by everything at or
    after the first occurrence of the legal-notice marker: replacing the
    text after the marker changes nothing, and the page produces exactly
    what its prefix before the marker produces. -/
theorem C6_notice_truncation :
    (∀ a b c : Chars,
      processPage (a ++ noticeMarker ++ b) = processPage (a ++ noticeMarker ++ c)) ∧
    (∀ content : Chars,
      processPage content = processPage (takeBeforeMarker noticeMarker content)) := by
  have hm : noticeMarker ≠ [] := by decide
  constructor
  · intro a b c
    have hocc1 : occursIn noticeMarker (a ++ noticeMarker ++ b) = true := by
      have := occursIn_sandwich noticeMarker hm a b
      simpa [List.append_assoc] using this
    have hocc2 : occursIn noticeMarker (a ++ noticeMarker ++ c) = true := by
      have := occursIn_sandwich noticeMarker hm a c
      simpa [List.append_assoc] using this
    have htb : takeBeforeMarker noticeMarker (a ++ noticeMarker ++ b) =
        takeBeforeMarker noticeMarker (a ++ noticeMarker ++ c) := by
      have := takeBeforeMarker_sandwich noticeMarker hm a b c
      simpa [List.append_assoc] using this
    unfold processPage pageLines
    rw [if_pos hocc1, if_pos hocc2, htb]
  · intro content
    by_cases hocc : occursIn noticeMarker content
    · have h2 : occursIn noticeMarker (takeBeforeMarker noticeMarker content) = false :=
        occursIn_takeBefore_false noticeMarker hm content
      unfold processPage pageLines
      rw [if_pos hocc, if_neg (by simp [h2])]
    · have h2 : takeBeforeMarker noticeMarker content = content :=
        occursIn_false_takeBefore noticeMarker content (by simpa using hocc)
      rw [h2]

/-- C7: a date line's own amount tokens are never classified: the new
    pending transaction starts with all three slots unset and the full
    remainder (amounts included) as its description; the leaked amount
    substrings are stripped by the aggregation cleanup, as the concrete
    one-line page shows end to end. -/
theorem C7_date_line_amounts_untouched :
    (∀ d r : Chars, (startPending d r).credits = none ∧ (startPending d r).debits = none ∧
      (startPending d r).balance = none) ∧
    processPage (cs "01/03/2023 STORE $9.99 ($2.00) $50.00") =
      [{ date := cs "01/03/2023", description := cs "STORE $9.99 ($2.00) $50.00",
         credits := none, debits := none, balance := none }] ∧
    runPages [cs "01/03/2023 STORE $9.99 ($2.00) $50.00"] =
      [{ date := cs "01/03/2023", description := cs "STORE", credits := cs "",
         debits := cs "", balance := cs "" }] := by
  exact ⟨fun d r => ⟨rfl, rfl, rfl⟩, by decide, by decide⟩

/-- C8, counterexample: the claim says a lookahead line without amount
    tokens "is later processed as an ordinary continuation line", but a
    date-prefixed lookahead line without amounts is processed as a new
    transaction boundary instead: the actual run yields two transactions,
    while continuation processing of that line would merge it into the
    first transaction's description. -/
theorem C8_counterexample :
    (segLoop [cs "01/02/2023 A", cs "01/03/2023 B"] 0 emptyPending []).1 =
      [{ date := cs "01/02/2023", description := cs "A", credits := none, debits := none,
         balance := none },
       { date := cs "01/03/2023", description := cs "B", credits := none, debits := none,
         balance := none }] ∧
    (segLoop [cs "01/02/2023 A", cs "01/03/2023 B"] 2
        (contLine (startPending (cs "01/02/2023") (cs "A")) (cs "01/03/2023 B")) []).1 =
      [{ date := cs "01/02/2023", description := cs "A 01/03/2023 B", credits := none,
         debits := none, balance := none }] ∧
    (segLoop [cs "01/02/2023 A", cs "01/03/2023 B"] 0 emptyPending []).1 ≠
      (segLoop [cs "01/02/2023 A", cs "01/03/2023 B"] 2
        (contLine (startPending (cs "01/02/2023") (cs "A")) (cs "01/03/2023 B")) []).1 := by
  exact ⟨by decide, by decide, by decide⟩

/-- C8, amended: after a date line the next line is inspected; with amount
    tokens it is consumed (classified, remainder appended, cursor past it,
    never reprocessed); without amount tokens it is not consumed and is
    re-dispatched by the ordinary per-line rules, in particular as an
    ordinary continuation line when it is neither header-shaped nor
    date-prefixed. -/
theorem C8_lookahead (lines : List Chars) (i : Nat) (cur : Pending) (acc : List Txn)
    (h : i < lines.length) (h2 : i + 1 < lines.length) (d r nl : Chars)
    (hH : isHeaderLine (stripChars (lines.get ⟨i, h⟩)) = false)
    (hD : dateMatch (stripChars (lines.get ⟨i, h⟩)) = some (d, r))
    (hnl : nl = stripChars (lines.get ⟨i + 1, h2⟩)) :
    (findAmounts nl ≠ [] →
      segLoop lines i cur acc =
        segLoop lines (i + 2) (lookaheadLine (startPending d r) nl) (acc ++ emitMid cur)) ∧
    (findAmounts nl = [] →
      segLoop lines i cur acc =
        segLoop lines (i + 1) (startPending d r) (acc ++ emitMid cur)) ∧
    (findAmounts nl = [] → isHeaderLine nl = false → dateMatch nl = none →
      segLoop lines i cur acc =
        segLoop lines (i + 2) (contLine (startPending d r) nl) (acc ++ emitMid cur)) := by
  subst hnl
  have hstep := segLoop_eq lines i cur acc
  rw [dif_pos h, hH] at hstep
  simp only [Bool.false_eq_true, if_false] at hstep
  rw [hD] at hstep
  dsimp only at hstep
  rw [dif_pos h2] at hstep
  refine ⟨fun hne => ?_, fun he => ?_, fun he hH2 hD2 => ?_⟩
  · rw [if_neg (by simp only [List.isEmpty_iff]; exact hne)] at hstep
    exact hstep
  · rw [if_pos (by simp only [List.isEmpty_iff]; exact he)] at hstep
    exact hstep
  · rw [if_pos (by simp only [List.isEmpty_iff]; exact he)] at hstep
    have hstep2 := segLoop_eq lines (i + 1) (startPending d r) (acc ++ emitMid cur)
    rw [dif_pos h2, hH2] at hstep2
    simp only [Bool.false_eq_true, if_false] at hstep2
    rw [hD2] at hstep2
    dsimp only at hstep2
    exact hstep.trans hstep2

/-- Witness for C8 on a concrete two-line page whose second line has no
    amount tokens and is neither header-shaped nor date-prefixed. -/
theorem C8_lookahead_witness :
    (findAmounts (cs "junk stuff") ≠ [] →
      segLoop [cs "01/01/2023 X", cs "junk stuff"] 0 emptyPending [] =
        segLoop [cs "01/01/2023 X", cs "junk stuff"] 2
          (lookaheadLine (startPending (cs "01/01/2023") (cs "X")) (cs "junk stuff"))
          ([] ++ emitMid emptyPending)) ∧
    (findAmounts (cs "junk stuff") = [] →
      segLoop [cs "01/01/2023 X", cs "junk stuff"] 0 emptyPending [] =
        segLoop [cs "01/01/2023 X", cs "junk stuff"] 1
          (startPending (cs "01/01/2023") (cs "X")) ([] ++ emitMid emptyPending)) ∧
    (findAmounts (cs "junk stuff") = [] → isHeaderLine (cs "junk stuff") = false →
      dateMatch (cs "junk stuff") = none →
      segLoop [cs "01/01/2023 X", cs "junk stuff"] 0 emptyPending [] =
        segLoop [cs "01/01/2023 X", cs "junk stuff"] 2
          (contLine (startPending (cs "01/01/2023") (cs "X")) (cs "junk stuff"))
          ([] ++ emitMid emptyPending)) :=
  C8_lookahead [cs "01/01/2023 X", cs "junk stuff"] 0 emptyPending []
    (by decide) (by decide) (cs "01/01/2023") (cs "X") (cs "junk stuff")
    (by decide) (by decide) (by decide)

/-- C9: on a page whose filtered lines contain exactly one date-prefixed
    line, the loop emits exactly the end-of-page finalization of its final
    pending transaction: one transaction when it passes the
    exclusion/emptiness check, zero exactly when it fails it. -/
theorem C9_single_date_page (lines : List Chars) (h : lines.countP isDateL = 1) :
    (segLoop lines 0 emptyPending []).1 =
      if endCheck (segLoop lines 0 emptyPending []).2 = true
      then [mkTxn (segLoop lines 0 emptyPending []).2] else [] := by
  have hres := segLoop_oneDate lines 0 emptyPending [] rfl
    (by rw [List.drop_zero, h])
  simpa [emitEnd] using hres

/-- Witness for C9 on a concrete one-line page. -/
theorem C9_single_date_page_witness :
    ([cs "01/02/2023 COFFEE"] : List Chars).countP isDateL = 1 ∧
    (segLoop [cs "01/02/2023 COFFEE"] 0 emptyPending []).1 =
      (if endCheck (segLoop [cs "01/02/2023 COFFEE"] 0 emptyPending []).2 = true
       then [mkTxn (segLoop [cs "01/02/2023 COFFEE"] 0 emptyPending []).2] else []) :=
  ⟨by decide, C9_single_date_page _ (by decide)⟩

/-- C10: once the balance slot is set it survives classification of any
    further amount tokens and the processing of any further continuation
    or lookahead line before finalization. -/
theorem C10_balance_never_overwritten (p : Pending) (b : Chars) (hb : p.balance = some b)
    (ts : List Chars) (l nl : Chars) :
    (classifyAmounts p ts).balance = some b ∧ (contLine p l).balance = some b ∧
    (lookaheadLine p nl).balance = some b := by
  refine ⟨classifyAmounts_balance_some p b hb ts, ?_, ?_⟩
  · unfold contLine
    by_cases ha : (scanAmounts l).1.isEmpty
    · rw [if_pos ha]
      exact hb
    · rw [if_neg ha]
      apply classifyAmounts_balance_some
      by_cases hd2 : (cutNotice (stripChars (scanAmounts l).2)).isEmpty
      · rw [if_pos hd2]
        exact hb
      · rw [if_neg hd2]
        exact hb
  · unfold lookaheadLine
    apply classifyAmounts_balance_some
    by_cases hd2 : (stripChars (scanAmounts nl).2).isEmpty
    · rw [if_pos hd2]
      exact hb
    · rw [if_neg hd2]
      exact hb

/-- Witness for C10 at a concrete pending transaction and inputs. -/
theorem C10_balance_never_overwritten_witness :
    ({ date := none, descParts := [], credits := none, debits := none,
       balance := some (cs "$8.00") } : Pending).balance = some (cs "$8.00") ∧
    ((classifyAmounts
        { date := none, descParts := [], credits := none, debits := none,
          balance := some (cs "$8.00") }
        [cs "$1.00", cs "($2.00)", cs "$3.00"]).balance = some (cs "$8.00") ∧
      (contLine
        { date := none, descParts := [], credits := none, debits := none,
          balance := some (cs "$8.00") } (cs "$4.00 x")).balance = some (cs "$8.00") ∧
      (lookaheadLine
        { date := none, descParts := [], credits := none, debits := none,
          balance := some (cs "$8.00") } (cs "($5.00) y")).balance = some (cs "$8.00")) :=
  ⟨rfl, C10_balance_never_overwritten _ _ rfl [cs "$1.00", cs "($2.00)", cs "$3.00"]
    (cs "$4.00 x") (cs "($5.00) y")⟩

end Claims

end AmexParse
